import Mathlib

/-!
Verification of the local filesystem core of iron-carrier (`src/fs.rs`).

Modelling conventions, shared by all definitions below:

* A filesystem path (`PathBuf`) is a list of normal components (`FsPath`);
  each component is a `String`.  Rust compares paths component-wise with
  byte-wise comparison of each component; since UTF-8 byte order agrees with
  code-point order, this is the lexicographic order on `List String` keyed
  through the character lists of the components (`pathKey`, `pathLt`, `pathLe`).
* A `SystemTime` is an integer number of seconds relative to the Unix epoch
  (`Int`; negative values model pre-epoch times, for which
  `duration_since(UNIX_EPOCH)` fails).
* Fallible operations return `Except IronCarrierError` or `Option`, mirroring
  `crate::Result` and `Option` in the source.
* The ambient filesystem is a value `Fs`: a finite association list from
  absolute paths to nodes (files with metadata, or directories), plus a
  function modelling the operating system's `Path::canonicalize`.
  Directory trees walked by `walk_path` are modelled structurally (`FsTree`),
  and the tombstone store read from the `DeletionTracker` collaborator is
  passed in as the mapping it returns, exactly as the scan receives it.
-/

namespace IronCarrier

/-- A relative or absolute filesystem path, as its list of normal components.
Models `std::path::PathBuf`. -/
abbrev FsPath := List String

/-- Comparison key of a path: each component as its character list.  Rust
compares `Path`s component-wise by the bytes of each component; UTF-8 byte
order coincides with the lexicographic order on the character lists. -/
def pathKey (p : FsPath) : List (List Char) := p.map String.toList

/-- The (non-strict) order in which `Ord for FileInfo` sorts paths. -/
def pathLe (p q : FsPath) : Prop := pathKey p ≤ pathKey q

/-- The strict order on paths corresponding to `pathLe`. -/
def pathLt (p q : FsPath) : Prop := pathKey p < pathKey q

instance (p q : FsPath) : Decidable (pathLe p q) :=
  inferInstanceAs (Decidable (pathKey p ≤ pathKey q))

instance (p q : FsPath) : Decidable (pathLt p q) :=
  inferInstanceAs (Decidable (pathKey p < pathKey q))

/-- Models `str::ends_with`: the characters of `suf` are a suffix of those
of `s`. -/
def strEndsWith (s suf : String) : Bool :=
  suf.toList.isSuffixOf s.toList

/-- Models `system_time_to_secs` (fs.rs lines 36-40):
`time.duration_since(UNIX_EPOCH).map(|d| d.as_secs()).ok()`.
A pre-epoch time yields `none`. -/
def system_time_to_secs (time : Int) : Option Nat :=
  if 0 ≤ time then some time.toNat else none

/-- Filesystem metadata of one entry, as the scan reads it
(`std::fs::Metadata`).  `created`/`modified` model `metadata.created().ok()`
and `metadata.modified().ok()` — `none` is an unreadable timestamp, and the
`Int` value may still be pre-epoch.  `len` models `metadata.len()`. -/
structure Metadata where
  created : Option Int
  modified : Option Int
  len : Nat
  deriving DecidableEq

/-- Models `struct FileInfo` (fs.rs lines 22-34).  The Rust field `alias` is
called `aliasName` here because `alias` is a Lean keyword; all other field
names and their order match the source. -/
structure FileInfo where
  aliasName : String
  path : FsPath
  modified_at : Option Nat
  created_at : Option Nat
  deleted_at : Option Nat
  size : Option Nat
  deriving DecidableEq

/-- Models `FileInfo::new` (fs.rs lines 43-52): a live record built from
filesystem metadata. -/
def FileInfo.new (a : String) (relative_path : FsPath) (metadata : Metadata) : FileInfo :=
  { aliasName := a
    path := relative_path
    created_at := metadata.created.bind system_time_to_secs
    modified_at := metadata.modified.bind system_time_to_secs
    deleted_at := none
    size := some metadata.len }

/-- Models `FileInfo::new_deleted` (fs.rs lines 54-69): a tombstone record.
`SystemTime::now()` is passed in explicitly as `now`. -/
def FileInfo.new_deleted (a : String) (relative_path : FsPath) (deleted_at : Option Int)
    (now : Int) : FileInfo :=
  { aliasName := a
    path := relative_path
    created_at := none
    modified_at := none
    size := none
    deleted_at := (deleted_at.orElse (fun _ => some now)).bind system_time_to_secs }

/-- Models `enum IronCarrierError` (src/lib.rs). -/
inductive IronCarrierError where
  | ConfigFileNotFound
  | ConfigFileIsInvalid
  | InvalidPeerAddress
  | AliasNotAvailable (a : String)
  | IOReadingError
  | IOWritingError
  | ServerStartError (reason : String)
  | PeerDisconectedError (peer_address : String)
  | NetworkIOReadingError
  | NetworkIOWritingError
  | ParseCommandError
  deriving DecidableEq

/-- The caller-supplied alias table (the `paths` field of `Config`): a finite
mapping from alias names to configured root paths, modelled as an association
list; `config.paths.get(&alias)` becomes `List.lookup`. -/
structure Config where
  paths : List (String × FsPath)

/-- One node of the flat filesystem view: a regular file with its metadata,
or a directory. -/
inductive FNode where
  | file (meta : Metadata)
  | dir
  deriving DecidableEq

/-- The ambient filesystem state seen by the mutating operations: `canon`
models the operating system's `Path::canonicalize` (`none` when
canonicalization fails, e.g. the path does not exist), and `entries` is the
finite map from absolute paths to nodes. -/
structure Fs where
  canon : FsPath → Option FsPath
  entries : List (FsPath × FNode)

/-- Look up the node stored at an absolute path. -/
def Fs.lookupNode (fs : Fs) (p : FsPath) : Option FNode :=
  fs.entries.lookup p

/-- Models `Path::exists`. -/
def Fs.existsAt (fs : Fs) (p : FsPath) : Bool :=
  (fs.lookupNode p).isSome

/-- Models `Path::is_dir`. -/
def Fs.isDirAt (fs : Fs) (p : FsPath) : Bool :=
  match fs.lookupNode p with
  | some .dir => true
  | _ => false

/-- Models `Path::metadata().ok()`: the metadata of a regular file, `none`
when the path is absent (reading a directory's metadata is not needed by any
claim and is modelled as unreadable). -/
def Fs.metadataAt (fs : Fs) (p : FsPath) : Option Metadata :=
  match fs.lookupNode p with
  | some (.file m) => some m
  | _ => none

/-- Set the modification time of a node, keeping everything else. -/
def FNode.withMtime : FNode → Nat → FNode
  | .file m, t => .file { m with modified := some t }
  | .dir, _ => .dir

/-- Models `tokio::fs::remove_file`: drop the single entry at `p`. -/
def Fs.removeFile (fs : Fs) (p : FsPath) : Fs :=
  { fs with entries := fs.entries.filter (fun e => !(e.1 == p)) }

/-- Models `tokio::fs::remove_dir_all`: drop every entry whose path has `p`
as a prefix (the directory itself and all of its contents). -/
def Fs.removeDirAll (fs : Fs) (p : FsPath) : Fs :=
  { fs with entries := fs.entries.filter (fun e => !(p.isPrefixOf e.1)) }

/-- Models `tokio::fs::rename src dst` with POSIX atomic-replace semantics:
fails (`none`) when the source is absent; otherwise the source entry is
removed and the destination now holds the source's node, replacing whatever
was there. -/
def Fs.rename (fs : Fs) (src dst : FsPath) : Option Fs :=
  match fs.lookupNode src with
  | none => none
  | some n =>
    some { fs with
            entries := (dst, n) :: fs.entries.filter (fun e => !(e.1 == src) && !(e.1 == dst)) }

/-- Models `filetime::set_file_mtime`: fails when the path is absent,
otherwise updates the stored modification time (in whole seconds). -/
def Fs.setMtime (fs : Fs) (p : FsPath) (t : Nat) : Option Fs :=
  match fs.lookupNode p with
  | none => none
  | some _ =>
    some { fs with
            entries := fs.entries.map (fun e => if e.1 == p then (e.1, e.2.withMtime t) else e) }

/-- Models `FileInfo::get_absolute_path` (fs.rs lines 87-107): look the alias
up in the table, canonicalize the configured root, and append the record's
relative-path components verbatim (`root_path.extend(self.path.components())`). -/
def FileInfo.get_absolute_path (fi : FileInfo) (config : Config) (fs : Fs) :
    Except IronCarrierError FsPath :=
  match config.paths.lookup fi.aliasName with
  | some path =>
    match fs.canon path with
    | some root_path => .ok (root_path ++ fi.path)
    | none => .error (.AliasNotAvailable fi.aliasName)
  | none => .error (.AliasNotAvailable fi.aliasName)

/-- The `Option` chain inside `is_local_file_newer` (fs.rs lines 75-79): the
local file's modification time in seconds, `none` as soon as the path cannot
be resolved, the metadata or its modification time cannot be read, or the
time is unrepresentable. -/
def localModifiedSecs (fi : FileInfo) (config : Config) (fs : Fs) : Option Nat :=
  (((fi.get_absolute_path config fs).toOption.bind fs.metadataAt).bind
      Metadata.modified).bind system_time_to_secs

/-- Models `FileInfo::is_local_file_newer` (fs.rs lines 71-83).  The closure
argument is called `created_at` in the source although it holds the local
modification time; `self.modified_at.unwrap()` is modelled with a default
that is never reached when the contract (`modified_at` present on live
records) holds. -/
def FileInfo.is_local_file_newer (fi : FileInfo) (config : Config) (fs : Fs) : Bool :=
  if fi.deleted_at.isSome then
    true
  else
    ((localModifiedSecs fi config fs).map
        (fun created_at => decide (created_at > fi.modified_at.getD 0))).getD false

/-- The data `impl Hash for FileInfo` (fs.rs lines 110-117) feeds to the
hasher, in order: `alias`, `path`, `modified_at`, `size` — and nothing else. -/
structure HashInput where
  aliasName : String
  path : FsPath
  modified_at : Option Nat
  size : Option Nat
  deriving DecidableEq

/-- The exact data fed to the fingerprint hasher for one record. -/
def FileInfo.hashData (fi : FileInfo) : HashInput :=
  { aliasName := fi.aliasName
    path := fi.path
    modified_at := fi.modified_at
    size := fi.size }

/-- Models `impl PartialEq for FileInfo` (fs.rs lines 121-125):
`self.path.eq(&other.path)`. -/
def FileInfo.beq (a b : FileInfo) : Bool :=
  a.path == b.path

/-- Component-wise path comparison, the `Ordering` view of
`pathLt`/`pathLe`; models `Path::cmp`. -/
def pathCmp (p q : FsPath) : Ordering :=
  if pathLt p q then .lt else if pathLt q p then .gt else .eq

/-- Models `impl Ord for FileInfo` (fs.rs lines 133-137):
`self.path.cmp(&other.path)`. -/
def FileInfo.cmp (a b : FileInfo) : Ordering :=
  pathCmp a.path b.path

/-- Split a character list around its last `'.'`: `some (before, after)`
when a dot occurs, `none` otherwise. -/
def lastDotSplit : List Char → Option (List Char × List Char)
  | [] => none
  | c :: rest =>
    match lastDotSplit rest with
    | some (b, a) => some (c :: b, a)
    | none => if c = '.' then some ([], rest) else none

/-- Models `Path::set_extension` on a single file name: the file stem is the
portion before the final dot, except that a leading dot with no later dot
belongs to the stem (hidden files such as `".ironcarrier"` have no
extension); the new name is the stem, a dot, and `ext`. -/
def set_extension_name (name ext : String) : String :=
  let cs := name.toList
  let stem :=
    match lastDotSplit cs with
    | some (b, _) => if b = [] then cs else b
    | none => cs
  String.mk (stem ++ ('.' :: ext.toList))

/-- Models `PathBuf::set_extension ext`: replace the extension of the last
component; a path with no file name (no components) is left unchanged. -/
def set_extension : FsPath → String → FsPath
  | [], _ => []
  | [name], ext => [set_extension_name name ext]
  | c :: c' :: rest, ext => c :: set_extension (c' :: rest) ext

/-- Models `delete_file` (fs.rs lines 214-230): resolve the absolute path;
a nonexistent path is a successful no-op, a directory is removed recursively,
anything else is removed as a single file. -/
def delete_file (fi : FileInfo) (config : Config) (fs : Fs) : Except IronCarrierError Fs :=
  match fi.get_absolute_path config fs with
  | .error e => .error e
  | .ok path =>
    if !(fs.existsAt path) then .ok fs
    else if fs.isDirAt path then .ok (fs.removeDirAll path)
    else .ok (fs.removeFile path)

/-- Models `move_file` (fs.rs lines 232-245): resolve both absolute paths and
rename the source onto the destination; an I/O failure of the rename is
surfaced. -/
def move_file (src_file dest_file : FileInfo) (config : Config) (fs : Fs) :
    Except IronCarrierError Fs :=
  match src_file.get_absolute_path config fs with
  | .error e => .error e
  | .ok src_path =>
    match dest_file.get_absolute_path config fs with
    | .error e => .error e
    | .ok dest_path =>
      match fs.rename src_path dest_path with
      | none => .error .IOWritingError
      | some fs1 => .ok fs1

/-- Models `flush_temp_file` (fs.rs lines 265-281): derive the sibling temp
path by replacing the final path's extension with `ironcarrier`, rename it
onto the final path, then set the final path's modification time to
`file_info.modified_at.unwrap()` seconds (the `unwrap` is modelled with a
default that is never reached when `modified_at` is present).  I/O failures
of the rename or of `set_file_mtime` are surfaced as errors. -/
def flush_temp_file (file_info : FileInfo) (config : Config) (fs : Fs) :
    Except IronCarrierError Fs :=
  match file_info.get_absolute_path config fs with
  | .error e => .error e
  | .ok final_path =>
    let temp_path := set_extension final_path "ironcarrier"
    match fs.rename temp_path final_path with
    | none => .error .IOWritingError
    | some fs1 =>
      match fs1.setMtime final_path (file_info.modified_at.getD 0) with
      | none => .error .IOWritingError
      | some fs2 => .ok fs2

/-- Models `is_special_file` (fs.rs lines 284-289): the file name (last
component) ends with `ironcarrier`; a path without a file name is not
special (`unwrap_or_default`). -/
def is_special_file (path : FsPath) : Bool :=
  ((path.getLast?.map (fun name => strEndsWith name "ironcarrier")).getD false)

/-- A directory tree as the scan traverses it: the entries of each directory
are listed in the order `read_dir` yields them. -/
inductive FsTree where
  | file (meta : Metadata)
  | dir (entries : List (String × FsTree))

mutual

/-- Size of a tree, for the termination measure of the walk. -/
def FsTree.sz : FsTree → Nat
  | .file _ => 1
  | .dir es => 1 + FsTree.szEntries es

/-- Total size of a directory's entry list. -/
def FsTree.szEntries : List (String × FsTree) → Nat
  | [] => 0
  | e :: rest => FsTree.sz e.2 + FsTree.szEntries rest

end

/-- One iteration of the inner `while let Some(entry) = entries.next_entry()`
loop of `walk_path`, over the whole entry list of one directory at relative
path `rel`: special entries are skipped, sub-directories are pushed (first
component of the result, in encounter order), and for every other entry a
live record is appended (second component, in encounter order).  The path of
an entry inside the root is `rel ++ [name]`; `path.strip_prefix(root_path)`
is the identity on these relative paths. -/
def processEntries (a : String) (rel : FsPath) :
    List (String × FsTree) → List (FsPath × List (String × FsTree)) × List FileInfo
  | [] => ([], [])
  | (name, sub) :: rest =>
    let p := rel ++ [name]
    let r := processEntries a rel rest
    if is_special_file p then r
    else
      match sub with
      | .dir es => ((p, es) :: r.1, r.2)
      | .file m => (r.1, FileInfo.new a p m :: r.2)

/-- Termination measure of the outer walk loop: total size of the directories
still on the work stack. -/
def stackSz : List (FsPath × List (String × FsTree)) → Nat
  | [] => 0
  | e :: rest => (1 + FsTree.szEntries e.2) + stackSz rest

theorem processEntries_stackSz (a : String) (rel : FsPath) :
    ∀ es : List (String × FsTree),
      stackSz (processEntries a rel es).1 ≤ FsTree.szEntries es := by
  intro es
  induction es with
  | nil => simp [processEntries, stackSz]
  | cons e rest ih =>
    obtain ⟨name, sub⟩ := e
    simp only [processEntries]
    split
    · calc stackSz (processEntries a rel rest).1 ≤ FsTree.szEntries rest := ih
        _ ≤ FsTree.szEntries ((name, sub) :: rest) := by
            simp only [FsTree.szEntries]
            omega
    · cases sub with
      | dir es' =>
        simp only [stackSz, FsTree.szEntries, FsTree.sz]
        omega
      | file m =>
        simp only [FsTree.szEntries, FsTree.sz]
        omega

theorem stackSz_append (a b : List (FsPath × List (String × FsTree))) :
    stackSz (a ++ b) = stackSz a + stackSz b := by
  induction a with
  | nil => simp [stackSz]
  | cons e rest ih =>
    rw [List.cons_append]
    simp only [stackSz]
    omega

theorem stackSz_reverse (a : List (FsPath × List (String × FsTree))) :
    stackSz a.reverse = stackSz a := by
  induction a with
  | nil => rfl
  | cons e rest ih =>
    rw [List.reverse_cons, stackSz_append]
    simp only [stackSz]
    omega

/-- The outer `while let Some(path) = paths.pop()` loop of `walk_path`
(fs.rs lines 154-175).  The work stack is kept top-first (the head is the
most recently pushed directory, matching `Vec::push`/`Vec::pop`), each stack
entry holding a directory's relative path together with its entry list, and
`files` is the accumulated record list. -/
def walkLoop (a : String) :
    List (FsPath × List (String × FsTree)) → List FileInfo → List FileInfo
  | [], files => files
  | (rel, entries) :: stack, files =>
    let r := processEntries a rel entries
    walkLoop a (r.1.reverse ++ stack) (files ++ r.2)
termination_by st _ => stackSz st
decreasing_by
  simp only [stackSz, stackSz_append, stackSz_reverse]
  have h1 : stackSz (processEntries a rel entries).1 ≤ FsTree.szEntries entries :=
    processEntries_stackSz a rel entries
  omega

/-- The relation `Vec::sort` on `Vec<FileInfo>` sorts by: ascending by the
`Ord` implementation, which compares paths alone. -/
def fileLe (a b : FileInfo) : Prop := pathLe a.path b.path

instance : DecidableRel fileLe :=
  fun a b => inferInstanceAs (Decidable (pathLe a.path b.path))

instance : IsTotal FileInfo fileLe :=
  ⟨fun a b => le_total (pathKey a.path) (pathKey b.path)⟩

instance : IsTrans FileInfo fileLe :=
  ⟨fun a _ _ h h' => le_trans (a := pathKey a.path) h h'⟩

/-- Models `walk_path` (fs.rs lines 143-180) for a successful scan: seed the
record list with one tombstone per entry of the mapping obtained from the
`DeletionTracker` collaborator (`new_deleted` is called with `Some v`, so the
wall-clock argument is irrelevant and passed as `0`), traverse the tree with
the explicit work stack, and finally sort ascending (`files.sort()` is a
stable sort by the path-only `Ord`, modelled by insertion sort, which is
stable). -/
def walk_path (a : String) (tombstones : List (FsPath × Int))
    (root : List (String × FsTree)) : List FileInfo :=
  let files := tombstones.map (fun kv => FileInfo.new_deleted a kv.1 (some kv.2) 0)
  let files := walkLoop a [([], root)] files
  List.insertionSort fileLe files

/-- Structural recollection of the records the walk produces for one
directory's entries: used to reason about `walkLoop` (the walk visits the
same entries, only in stack order). -/
def collectEntries (a : String) : FsPath → List (String × FsTree) → List FileInfo
  | _, [] => []
  | rel, (name, sub) :: rest =>
    (if is_special_file (rel ++ [name]) then []
     else
       match sub with
       | .dir es => collectEntries a (rel ++ [name]) es
       | .file m => [FileInfo.new a (rel ++ [name]) m]) ++ collectEntries a rel rest

/-- Records contributed by every directory still on a work stack. -/
def collectStack (a : String) : List (FsPath × List (String × FsTree)) → List FileInfo
  | [] => []
  | (rel, entries) :: rest => collectEntries a rel entries ++ collectStack a rest

mutual

/-- Well-formedness of a tree: within each directory, entry names are
pairwise distinct (as they are on a real filesystem). -/
def FsTree.wf : FsTree → Bool
  | .file _ => true
  | .dir es => wfEntries es

/-- Well-formedness of a directory entry list. -/
def wfEntries : List (String × FsTree) → Bool
  | [] => true
  | (name, sub) :: rest =>
    !((rest.map Prod.fst).contains name) && FsTree.wf sub && wfEntries rest

end

/-- The record invariant stated by the specification: exactly one of
"`modified_at`, `created_at` and `size` all present with `deleted_at`
absent" (live file) or "only `deleted_at` present" (tombstone). -/
def fileRecordInvariant (fi : FileInfo) : Prop :=
  (fi.modified_at.isSome ∧ fi.created_at.isSome ∧ fi.size.isSome ∧ fi.deleted_at = none) ∨
  (fi.deleted_at.isSome ∧ fi.modified_at = none ∧ fi.created_at = none ∧ fi.size = none)

instance (fi : FileInfo) : Decidable (fileRecordInvariant fi) :=
  inferInstanceAs (Decidable (_ ∨ _))

/-! Generic facts about the path order and the flat filesystem map. -/

theorem pathKey_injective : Function.Injective pathKey := by
  intro p q h
  have hinj : Function.Injective String.toList := fun a b hab => String.ext hab
  exact List.map_injective_iff.mpr hinj h

theorem pathLt_of_pathLe_of_ne {p q : FsPath} (h : pathLe p q) (hne : p ≠ q) : pathLt p q :=
  lt_of_le_of_ne h (fun hk => hne (pathKey_injective hk))

theorem lookup_filterKey (l : List (FsPath × FNode)) (g : FsPath → Bool) (p : FsPath) :
    (l.filter (fun e => g e.1)).lookup p = if g p then l.lookup p else none := by
  induction l with
  | nil => simp
  | cons e rest ih =>
    obtain ⟨k, v⟩ := e
    rw [List.filter_cons]
    by_cases hg : g k
    · rw [if_pos hg, List.lookup_cons, List.lookup_cons]
      by_cases hpk : p = k
      · subst hpk
        simp [hg]
      · simp only [beq_false_of_ne hpk]
        exact ih
    · rw [if_neg hg, List.lookup_cons, ih]
      by_cases hpk : p = k
      · subst hpk
        simp [hg]
      · simp only [beq_false_of_ne hpk]

theorem lookup_mapUpdate (l : List (FsPath × FNode)) (p q : FsPath) (f : FNode → FNode) :
    (l.map (fun e => if e.1 == p then (e.1, f e.2) else e)).lookup q =
      (l.lookup q).map (fun n => if q = p then f n else n) := by
  induction l with
  | nil => simp
  | cons e rest ih =>
    obtain ⟨k, v⟩ := e
    by_cases hkp : k = p
    · subst hkp
      simp only [List.map_cons, beq_self_eq_true, if_pos, List.lookup_cons]
      by_cases hqk : q = k
      · subst hqk
        simp
      · simp only [beq_false_of_ne hqk]
        exact ih
    · simp only [List.map_cons, beq_false_of_ne hkp, Bool.false_eq_true, if_false,
        List.lookup_cons]
      by_cases hqk : q = k
      · subst hqk
        simp [hkp]
      · simp only [beq_false_of_ne hqk]
        exact ih

theorem Fs.lookupNode_removeFile (fs : Fs) (p q : FsPath) :
    (fs.removeFile p).lookupNode q = if q = p then none else fs.lookupNode q := by
  show ((fs.entries.filter (fun e => !(e.1 == p))).lookup q) = _
  rw [lookup_filterKey fs.entries (fun x => !(x == p)) q]
  by_cases h : q = p
  · simp [h]
  · simp [beq_false_of_ne h, h, Fs.lookupNode]

theorem Fs.lookupNode_removeDirAll (fs : Fs) (p q : FsPath) :
    (fs.removeDirAll p).lookupNode q =
      if p.isPrefixOf q then none else fs.lookupNode q := by
  show ((fs.entries.filter (fun e => !(p.isPrefixOf e.1))).lookup q) = _
  rw [lookup_filterKey fs.entries (fun x => !(p.isPrefixOf x)) q]
  by_cases h : p.isPrefixOf q
  · simp [h]
  · simp [h, Fs.lookupNode]

theorem Fs.lookupNode_rename {fs fs1 : Fs} {src dst : FsPath}
    (h : fs.rename src dst = some fs1) (q : FsPath) :
    fs1.lookupNode q =
      if q = dst then fs.lookupNode src
      else if q = src then none
      else fs.lookupNode q := by
  unfold Fs.rename at h
  cases hsrc : fs.lookupNode src with
  | none => rw [hsrc] at h; exact absurd h (by simp)
  | some n =>
    rw [hsrc] at h
    cases h
    show ((((dst, n) :: fs.entries.filter (fun e => !(e.1 == src) && !(e.1 == dst))) :
        List (FsPath × FNode)).lookup q) = _
    rw [List.lookup_cons]
    by_cases hqd : q = dst
    · simp [hqd, hsrc]
    · rw [beq_false_of_ne hqd]
      simp only [if_neg hqd]
      rw [lookup_filterKey fs.entries (fun x => !(x == src) && !(x == dst)) q]
      by_cases hqs : q = src
      · simp [hqs]
      · simp [beq_false_of_ne hqs, beq_false_of_ne hqd, hqs, Fs.lookupNode]

theorem Fs.lookupNode_setMtime {fs fs1 : Fs} {p : FsPath} {t : Nat}
    (h : fs.setMtime p t = some fs1) (q : FsPath) :
    fs1.lookupNode q =
      (fs.lookupNode q).map (fun n => if q = p then n.withMtime t else n) := by
  unfold Fs.setMtime at h
  cases hp : fs.lookupNode p with
  | none => rw [hp] at h; exact absurd h (by simp)
  | some n =>
    rw [hp] at h
    cases h
    show ((fs.entries.map (fun e => if e.1 == p then (e.1, e.2.withMtime t) else e)).lookup q) = _
    exact lookup_mapUpdate fs.entries p q (fun x => x.withMtime t)

/-! Claims C2, C3, C6, C8, C9, C10. -/

/-- C2 (corrected), counterexample: the live-file constructor applied to
metadata whose timestamps are unreadable produces a record with
`created_at`/`modified_at` absent and `deleted_at` absent, so neither arm of
the claimed invariant holds. -/
theorem C2_invariant_cex :
    ¬ fileRecordInvariant (FileInfo.new "a" ["f"] ⟨none, none, 7⟩) := by
  decide

/-- C2 (amended): `FileInfo.new` always yields `size` present and
`deleted_at` absent, and satisfies the live-file invariant as soon as the
metadata timestamps are readable and representable; `FileInfo.new_deleted`
always yields `modified_at`, `created_at` and `size` absent, and satisfies
the tombstone invariant as soon as the supplied (or current) deletion time
is representable. -/
theorem C2_constructor_invariant :
    (∀ (a : String) (p : FsPath) (md : Metadata),
        (FileInfo.new a p md).size = some md.len ∧ (FileInfo.new a p md).deleted_at = none) ∧
    (∀ (a : String) (p : FsPath) (md : Metadata),
        (∃ c, md.created = some c ∧ 0 ≤ c) → (∃ t, md.modified = some t ∧ 0 ≤ t) →
        fileRecordInvariant (FileInfo.new a p md)) ∧
    (∀ (a : String) (p : FsPath) (d : Option Int) (now : Int),
        (FileInfo.new_deleted a p d now).modified_at = none ∧
        (FileInfo.new_deleted a p d now).created_at = none ∧
        (FileInfo.new_deleted a p d now).size = none) ∧
    (∀ (a : String) (p : FsPath) (d : Option Int) (now : Int),
        (∀ t, d = some t → 0 ≤ t) → (d = none → 0 ≤ now) →
        fileRecordInvariant (FileInfo.new_deleted a p d now)) := by
  refine ⟨fun a p md => ⟨rfl, rfl⟩, ?_, fun a p d now => ⟨rfl, rfl, rfl⟩, ?_⟩
  · rintro a p md ⟨c, hc, hc0⟩ ⟨t, ht, ht0⟩
    left
    refine ⟨?_, ?_, rfl, rfl⟩
    · simp [FileInfo.new, ht, system_time_to_secs, ht0]
    · simp [FileInfo.new, hc, system_time_to_secs, hc0]
  · intro a p d now hsome hnone
    right
    refine ⟨?_, rfl, rfl, rfl⟩
    cases d with
    | some t =>
      simp [FileInfo.new_deleted, Option.orElse, system_time_to_secs, hsome t rfl]
    | none =>
      simp [FileInfo.new_deleted, Option.orElse, system_time_to_secs, hnone rfl]

/-- C2 witness: the amended theorem applied at a concrete metadata value and
a concrete tombstone time. -/
theorem C2_constructor_invariant_witness :
    fileRecordInvariant (FileInfo.new "a" ["f"] ⟨some 1, some 2, 7⟩) ∧
    fileRecordInvariant (FileInfo.new_deleted "a" ["g"] (some 3) 0) :=
  ⟨C2_constructor_invariant.2.1 "a" ["f"] ⟨some 1, some 2, 7⟩
      ⟨1, rfl, by decide⟩ ⟨2, rfl, by decide⟩,
    C2_constructor_invariant.2.2.2 "a" ["g"] (some 3) 0
      (fun t ht => by cases ht; decide) (fun h => by cases h)⟩

/-- C3 (confirmed): `is_local_file_newer` returns true unconditionally on a
record with `deleted_at` set; otherwise, for a live record with `modified_at`
present, it returns false whenever the local modification time cannot be
obtained (unresolvable path, unreadable metadata or modification time), and
otherwise returns true exactly when the local modification time is strictly
greater than the record's `modified_at`. -/
theorem C3_is_local_file_newer_spec :
    ∀ (fi : FileInfo) (config : Config) (fs : Fs),
      (fi.deleted_at.isSome → fi.is_local_file_newer config fs = true) ∧
      (fi.deleted_at = none → ∀ m, fi.modified_at = some m →
        (localModifiedSecs fi config fs = none →
            fi.is_local_file_newer config fs = false) ∧
        (∀ t, localModifiedSecs fi config fs = some t →
            (fi.is_local_file_newer config fs = true ↔ m < t))) := by
  intro fi config fs
  constructor
  · intro h
    simp [FileInfo.is_local_file_newer, h]
  · intro hdel m hm
    constructor
    · intro hnone
      simp [FileInfo.is_local_file_newer, hdel, hnone]
    · intro t ht
      simp [FileInfo.is_local_file_newer, hdel, ht, hm]

/-- C3 witness: the theorem applied to a concrete tombstone record (first
part) and to a concrete live record over a concrete filesystem where the
local file is strictly newer (second part). -/
theorem C3_is_local_file_newer_witness :
    (FileInfo.mk "a" ["f"] none none (some 9) none).is_local_file_newer
        (Config.mk []) (Fs.mk (fun _ => none) []) = true ∧
    ((FileInfo.mk "a" ["f"] (some 5) none none (some 1)).is_local_file_newer
        (Config.mk [("a", ["root"])])
        (Fs.mk (fun p => if p = ["root"] then some ["root"] else none)
          [(["root", "f"], FNode.file ⟨some 1, some 7, 3⟩)]) = true ↔ (5 : Nat) < 7) :=
  ⟨(C3_is_local_file_newer_spec (FileInfo.mk "a" ["f"] none none (some 9) none)
      (Config.mk []) (Fs.mk (fun _ => none) [])).1 (by decide),
    ((C3_is_local_file_newer_spec (FileInfo.mk "a" ["f"] (some 5) none none (some 1))
          (Config.mk [("a", ["root"])])
          (Fs.mk (fun p => if p = ["root"] then some ["root"] else none)
            [(["root", "f"], FNode.file ⟨some 1, some 7, 3⟩)])).2 rfl 5 rfl).2 7 rfl⟩

/-- C6 (confirmed): path resolution fails with `AliasNotAvailable` exactly
when the alias is absent from the table or the configured root cannot be
canonicalized; on success it returns the canonical root with the record's
relative components appended verbatim. -/
theorem C6_get_absolute_path_spec :
    ∀ (fi : FileInfo) (config : Config) (fs : Fs),
      (config.paths.lookup fi.aliasName = none →
        fi.get_absolute_path config fs = .error (.AliasNotAvailable fi.aliasName)) ∧
      (∀ root, config.paths.lookup fi.aliasName = some root → fs.canon root = none →
        fi.get_absolute_path config fs = .error (.AliasNotAvailable fi.aliasName)) ∧
      (∀ root croot, config.paths.lookup fi.aliasName = some root →
        fs.canon root = some croot →
        fi.get_absolute_path config fs = .ok (croot ++ fi.path)) ∧
      (∀ e, fi.get_absolute_path config fs = .error e →
        e = .AliasNotAvailable fi.aliasName ∧
          (config.paths.lookup fi.aliasName = none ∨
            ∃ root, config.paths.lookup fi.aliasName = some root ∧ fs.canon root = none)) := by
  intro fi config fs
  refine ⟨?_, ?_, ?_, ?_⟩
  · intro h
    simp [FileInfo.get_absolute_path, h]
  · intro root h hc
    simp [FileInfo.get_absolute_path, h, hc]
  · intro root croot h hc
    simp [FileInfo.get_absolute_path, h, hc]
  · intro e he
    cases h : config.paths.lookup fi.aliasName with
    | none =>
      have hx : fi.get_absolute_path config fs = .error (.AliasNotAvailable fi.aliasName) := by
        simp [FileInfo.get_absolute_path, h]
      rw [hx] at he
      cases he
      exact ⟨rfl, Or.inl rfl⟩
    | some root =>
      cases hc : fs.canon root with
      | none =>
        have hx : fi.get_absolute_path config fs = .error (.AliasNotAvailable fi.aliasName) := by
          simp [FileInfo.get_absolute_path, h, hc]
        rw [hx] at he
        cases he
        exact ⟨rfl, Or.inr ⟨root, rfl, hc⟩⟩
      | some croot =>
        have hx : fi.get_absolute_path config fs = .ok (croot ++ fi.path) := by
          simp [FileInfo.get_absolute_path, h, hc]
        rw [hx] at he
        cases he

/-- C6 witness: the theorem applied at concrete inputs covering the missing
alias, the uncanonicalizable root, and the successful case. -/
theorem C6_get_absolute_path_witness :
    (FileInfo.mk "b" ["f"] (some 1) none none (some 0)).get_absolute_path
        (Config.mk [("a", ["root"])]) (Fs.mk (fun _ => none) []) =
      .error (.AliasNotAvailable "b") ∧
    (FileInfo.mk "a" ["f"] (some 1) none none (some 0)).get_absolute_path
        (Config.mk [("a", ["root"])]) (Fs.mk (fun _ => none) []) =
      .error (.AliasNotAvailable "a") ∧
    (FileInfo.mk "a" ["d", "f"] (some 1) none none (some 0)).get_absolute_path
        (Config.mk [("a", ["root"])])
        (Fs.mk (fun p => if p = ["root"] then some ["croot"] else none) []) =
      .ok ["croot", "d", "f"] :=
  ⟨(C6_get_absolute_path_spec (FileInfo.mk "b" ["f"] (some 1) none none (some 0))
        (Config.mk [("a", ["root"])]) (Fs.mk (fun _ => none) [])).1 rfl,
    (C6_get_absolute_path_spec (FileInfo.mk "a" ["f"] (some 1) none none (some 0))
        (Config.mk [("a", ["root"])]) (Fs.mk (fun _ => none) [])).2.1 ["root"] rfl rfl,
    (C6_get_absolute_path_spec (FileInfo.mk "a" ["d", "f"] (some 1) none none (some 0))
        (Config.mk [("a", ["root"])])
        (Fs.mk (fun p => if p = ["root"] then some ["croot"] else none) [])).2.2.1
      ["root"] ["croot"] rfl rfl⟩

/-- C8 (confirmed): equality and ordering of records depend only on their
paths and compare equal exactly when the paths are equal, while the data fed
to the fingerprint hasher consists of alias, path, `modified_at` and `size`:
it never changes when only `created_at` changes, and always changes when
`size` or `modified_at` changes. -/
theorem C8_eq_ord_hash_spec :
    ∀ a b : FileInfo,
      (FileInfo.beq a b = true ↔ a.path = b.path) ∧
      (FileInfo.cmp a b = .eq ↔ a.path = b.path) ∧
      (∀ a' b' : FileInfo, a'.path = a.path → b'.path = b.path →
        FileInfo.beq a' b' = FileInfo.beq a b ∧ FileInfo.cmp a' b' = FileInfo.cmp a b) ∧
      (∀ c, FileInfo.hashData { a with created_at := c } = FileInfo.hashData a) ∧
      (∀ s, s ≠ a.size → FileInfo.hashData { a with size := s } ≠ FileInfo.hashData a) ∧
      (∀ t, t ≠ a.modified_at →
        FileInfo.hashData { a with modified_at := t } ≠ FileInfo.hashData a) := by
  intro a b
  have hcmp : ∀ p q : FsPath, pathCmp p q = .eq ↔ p = q := by
    intro p q
    simp only [pathCmp, pathLt]
    rcases lt_trichotomy (pathKey p) (pathKey q) with h | h | h
    · rw [if_pos h]
      constructor
      · intro hx; cases hx
      · intro hx
        subst hx
        exact absurd h (lt_irrefl _)
    · rw [if_neg (by rw [h]; exact lt_irrefl _), if_neg (by rw [h]; exact lt_irrefl _)]
      simp [pathKey_injective h]
    · rw [if_neg (fun hx => absurd (lt_trans hx h) (lt_irrefl _)), if_pos h]
      constructor
      · intro hx; cases hx
      · intro hx
        subst hx
        exact absurd h (lt_irrefl _)
  refine ⟨?_, hcmp a.path b.path, ?_, fun c => rfl, ?_, ?_⟩
  · show ((a.path == b.path) = true ↔ _)
    exact beq_iff_eq
  · intro a' b' ha hb
    constructor
    · show (a'.path == b'.path) = (a.path == b.path)
      rw [ha, hb]
    · show pathCmp a'.path b'.path = pathCmp a.path b.path
      rw [ha, hb]
  · intro s hs h
    exact hs (congrArg HashInput.size h)
  · intro t ht h
    exact ht (congrArg HashInput.modified_at h)

/-- C8 witness: the theorem applied to two concrete records with distinct
contents but equal paths, discharging a sensitivity hypothesis concretely. -/
theorem C8_eq_ord_hash_witness :
    (FileInfo.beq (FileInfo.mk "a" ["p"] (some 1) (some 2) none (some 3))
        (FileInfo.mk "a" ["p"] (some 9) (some 8) none (some 7)) = true ↔
      (["p"] : FsPath) = ["p"]) ∧
    FileInfo.hashData { FileInfo.mk "a" ["p"] (some 1) (some 2) none (some 3) with
        size := some 4 } ≠
      FileInfo.hashData (FileInfo.mk "a" ["p"] (some 1) (some 2) none (some 3)) :=
  ⟨(C8_eq_ord_hash_spec (FileInfo.mk "a" ["p"] (some 1) (some 2) none (some 3))
      (FileInfo.mk "a" ["p"] (some 9) (some 8) none (some 7))).1,
    (C8_eq_ord_hash_spec (FileInfo.mk "a" ["p"] (some 1) (some 2) none (some 3))
        (FileInfo.mk "a" ["p"] (some 1) (some 2) none (some 3))).2.2.2.2.1
      (some 4) (by decide)⟩

/-- C9 (confirmed): the temp-path derivation used by `get_temp_file` and
`flush_temp_file` — replacing the extension with `ironcarrier` — is not
injective: the distinct sibling paths `foo.txt` and `foo.md` derive the same
temp path. -/
theorem C9_temp_path_collision :
    set_extension ["foo.txt"] "ironcarrier" = set_extension ["foo.md"] "ironcarrier" ∧
    set_extension ["foo.txt"] "ironcarrier" = ["foo.ironcarrier"] ∧
    (["foo.txt"] : FsPath) ≠ ["foo.md"] := by
  refine ⟨?_, ?_, by decide⟩ <;> decide

/-- C10 (confirmed): the hasher input never involves `deleted_at` (nor
`created_at`): two records differing only in those fields feed identical
data to the fingerprint. -/
theorem C10_hash_ignores_deleted_at :
    ∀ (a : FileInfo) (d c : Option Nat),
      FileInfo.hashData { a with deleted_at := d, created_at := c } = FileInfo.hashData a := by
  intro a d c
  rfl

/-- C7 (confirmed): once the alias resolves, `delete_file` is a successful
no-op when the resolved path does not exist, removes the directory and all
its contents when the path is a directory, and removes the single file
otherwise. -/
theorem C7_delete_file_spec :
    ∀ (fi : FileInfo) (config : Config) (fs : Fs) (p : FsPath),
      fi.get_absolute_path config fs = .ok p →
      (fs.existsAt p = false → delete_file fi config fs = .ok fs) ∧
      (fs.isDirAt p = true →
        delete_file fi config fs = .ok (fs.removeDirAll p) ∧
        ∀ q, (fs.removeDirAll p).lookupNode q =
          if p.isPrefixOf q then none else fs.lookupNode q) ∧
      (fs.existsAt p = true → fs.isDirAt p = false →
        delete_file fi config fs = .ok (fs.removeFile p) ∧
        ∀ q, (fs.removeFile p).lookupNode q = if q = p then none else fs.lookupNode q) := by
  intro fi config fs p hres
  have hd : delete_file fi config fs =
      (if !(fs.existsAt p) then .ok fs
       else if fs.isDirAt p then .ok (fs.removeDirAll p)
       else .ok (fs.removeFile p)) := by
    unfold delete_file
    rw [hres]
  refine ⟨?_, ?_, ?_⟩
  · intro hex
    rw [hd, hex]
    rfl
  · intro hdir
    have hex : fs.existsAt p = true := by
      unfold Fs.existsAt
      unfold Fs.isDirAt at hdir
      cases h : fs.lookupNode p with
      | none => rw [h] at hdir; cases hdir
      | some n => simp
    refine ⟨?_, fun q => Fs.lookupNode_removeDirAll fs p q⟩
    rw [hd, hex, hdir]
    rfl
  · intro hex hdirF
    refine ⟨?_, fun q => Fs.lookupNode_removeFile fs p q⟩
    rw [hd, hex, hdirF]
    rfl

/-- C7 witness: the theorem applied at concrete inputs, once for the no-op
case (empty filesystem) and once for the recursive directory case. -/
theorem C7_delete_file_witness :
    delete_file (FileInfo.mk "a" ["f"] (some 1) none none (some 0))
        (Config.mk [("a", ["r"])])
        (Fs.mk (fun p => if p = ["r"] then some ["r"] else none) []) =
      .ok (Fs.mk (fun p => if p = ["r"] then some ["r"] else none) []) ∧
    delete_file (FileInfo.mk "a" ["d"] (some 1) none none (some 0))
        (Config.mk [("a", ["r"])])
        (Fs.mk (fun p => if p = ["r"] then some ["r"] else none)
          [(["r", "d"], FNode.dir), (["r", "d", "x"], FNode.file ⟨some 1, some 2, 3⟩)]) =
      .ok ((Fs.mk (fun p => if p = ["r"] then some ["r"] else none)
          [(["r", "d"], FNode.dir),
            (["r", "d", "x"], FNode.file ⟨some 1, some 2, 3⟩)]).removeDirAll ["r", "d"]) :=
  ⟨(C7_delete_file_spec (FileInfo.mk "a" ["f"] (some 1) none none (some 0))
        (Config.mk [("a", ["r"])])
        (Fs.mk (fun p => if p = ["r"] then some ["r"] else none) []) ["r", "f"] rfl).1 rfl,
    ((C7_delete_file_spec (FileInfo.mk "a" ["d"] (some 1) none none (some 0))
          (Config.mk [("a", ["r"])])
          (Fs.mk (fun p => if p = ["r"] then some ["r"] else none)
            [(["r", "d"], FNode.dir), (["r", "d", "x"], FNode.file ⟨some 1, some 2, 3⟩)])
          ["r", "d"] rfl).2.1 rfl).1⟩

/-- C5 (corrected), counterexample: commit on a record whose path already
carries the sentinel extension derives a temp path equal to the final path;
the commit succeeds (a self-rename) but the temp file is still present
afterwards, contradicting "afterwards the temp file is absent". -/
theorem C5_flush_temp_file_cex :
    (match flush_temp_file (FileInfo.mk "a" ["f.ironcarrier"] (some 5) none none (some 3))
        (Config.mk [("a", ["r"])])
        (Fs.mk (fun p => if p = ["r"] then some ["r"] else none)
          [(["r", "f.ironcarrier"], FNode.file ⟨some 1, some 2, 3⟩)]) with
      | .ok fsOut => fsOut.existsAt (set_extension ["r", "f.ironcarrier"] "ironcarrier")
      | .error _ => false) = true ∧
    set_extension ["r", "f.ironcarrier"] "ironcarrier" = ["r", "f.ironcarrier"] := by
  constructor
  · decide
  · decide

/-- C5 (amended): for a record with `modified_at` present whose derived temp
path differs from the final path (the record's extension is not the sentinel
itself), a successful commit leaves the temp path absent and the final path
holding the temp file's node with its modification time set to exactly the
record's `modified_at`. -/
theorem C5_flush_temp_file_spec :
    ∀ (fi : FileInfo) (config : Config) (fs fs2 : Fs) (mt : Nat) (final : FsPath)
      (m : Metadata),
      fi.modified_at = some mt →
      fi.get_absolute_path config fs = .ok final →
      set_extension final "ironcarrier" ≠ final →
      fs.lookupNode (set_extension final "ironcarrier") = some (.file m) →
      flush_temp_file fi config fs = .ok fs2 →
      fs2.lookupNode (set_extension final "ironcarrier") = none ∧
      fs2.lookupNode final = some (.file { m with modified := some mt }) := by
  intro fi config fs fs2 mt final m hmt hres hne htemp hflush
  unfold flush_temp_file at hflush
  rw [hres] at hflush
  simp only [hmt, Option.getD_some] at hflush
  cases hr : fs.rename (set_extension final "ironcarrier") final with
  | none => rw [hr] at hflush; cases hflush
  | some fs1 =>
    rw [hr] at hflush
    have hflush2 : (match fs1.setMtime final mt with
        | none => (Except.error .IOWritingError : Except IronCarrierError Fs)
        | some fs2 => .ok fs2) = .ok fs2 := hflush
    cases hs : fs1.setMtime final mt with
    | none => rw [hs] at hflush2; cases hflush2
    | some fs2' =>
      rw [hs] at hflush2
      cases hflush2
      have h1 := Fs.lookupNode_rename hr
      have h2 := Fs.lookupNode_setMtime hs
      constructor
      · rw [h2, h1]
        rw [if_neg hne, if_pos rfl]
        rfl
      · rw [h2, h1]
        rw [if_pos rfl, htemp]
        simp [FNode.withMtime]

/-- C5 witness: the amended theorem applied at a concrete commit of
`f.txt` whose temp file `f.ironcarrier` holds staged content. -/
theorem C5_flush_temp_file_witness :
    (Fs.mk (fun p => if p = ["r"] then some ["r"] else none)
        [(["r", "f.txt"], FNode.file ⟨some 1, some 5, 3⟩)]).lookupNode
      (set_extension ["r", "f.txt"] "ironcarrier") = none ∧
    (Fs.mk (fun p => if p = ["r"] then some ["r"] else none)
        [(["r", "f.txt"], FNode.file ⟨some 1, some 5, 3⟩)]).lookupNode ["r", "f.txt"] =
      some (.file ⟨some 1, some 5, 3⟩) :=
  C5_flush_temp_file_spec (FileInfo.mk "a" ["f.txt"] (some 5) none none (some 3))
    (Config.mk [("a", ["r"])])
    (Fs.mk (fun p => if p = ["r"] then some ["r"] else none)
      [(["r", "f.ironcarrier"], FNode.file ⟨some 1, some 2, 3⟩)])
    (Fs.mk (fun p => if p = ["r"] then some ["r"] else none)
      [(["r", "f.txt"], FNode.file ⟨some 1, some 5, 3⟩)])
    5 ["r", "f.txt"] ⟨some 1, some 2, 3⟩ rfl rfl (by decide) rfl rfl

/-! Relating the stack-driven walk loop to the structural recollection of a
tree's records, and the resulting properties of `walk_path`. -/

theorem collectStack_append (a : String) (x y : List (FsPath × List (String × FsTree))) :
    collectStack a (x ++ y) = collectStack a x ++ collectStack a y := by
  induction x with
  | nil => simp [collectStack]
  | cons e rest ih =>
    obtain ⟨rel, entries⟩ := e
    rw [List.cons_append]
    simp only [collectStack]
    rw [ih, List.append_assoc]

theorem collectStack_reverse_perm (a : String) (x : List (FsPath × List (String × FsTree))) :
    (collectStack a x.reverse).Perm (collectStack a x) := by
  induction x with
  | nil => exact List.Perm.refl _
  | cons e rest ih =>
    obtain ⟨rel, entries⟩ := e
    rw [List.reverse_cons, collectStack_append]
    simp only [collectStack, List.append_nil]
    exact (ih.append_right _).trans List.perm_append_comm

theorem collectEntries_nil (a : String) (rel : FsPath) : collectEntries a rel [] = [] := by
  rw [collectEntries.eq_def]

theorem collectEntries_cons (a : String) (rel : FsPath) (name : String) (sub : FsTree)
    (rest : List (String × FsTree)) :
    collectEntries a rel ((name, sub) :: rest) =
      (if is_special_file (rel ++ [name]) then []
       else
         match sub with
         | .dir es => collectEntries a (rel ++ [name]) es
         | .file m => [FileInfo.new a (rel ++ [name]) m]) ++ collectEntries a rel rest := by
  rw [collectEntries.eq_def]

theorem processEntries_cons (a : String) (rel : FsPath) (name : String) (sub : FsTree)
    (rest : List (String × FsTree)) :
    processEntries a rel ((name, sub) :: rest) =
      (if is_special_file (rel ++ [name]) then processEntries a rel rest
       else
         match sub with
         | .dir es => ((rel ++ [name], es) :: (processEntries a rel rest).1,
             (processEntries a rel rest).2)
         | .file m => ((processEntries a rel rest).1,
             FileInfo.new a (rel ++ [name]) m :: (processEntries a rel rest).2)) := rfl

theorem walkLoop_nil (a : String) (files : List FileInfo) : walkLoop a [] files = files := by
  rw [walkLoop.eq_def]

theorem walkLoop_cons (a : String) (rel : FsPath) (entries : List (String × FsTree))
    (stack : List (FsPath × List (String × FsTree))) (files : List FileInfo) :
    walkLoop a ((rel, entries) :: stack) files =
      walkLoop a ((processEntries a rel entries).1.reverse ++ stack)
        (files ++ (processEntries a rel entries).2) := by
  rw [walkLoop.eq_def]

theorem processEntries_collect (a : String) (rel : FsPath) :
    ∀ es : List (String × FsTree),
      ((processEntries a rel es).2 ++ collectStack a (processEntries a rel es).1).Perm
        (collectEntries a rel es) := by
  intro es
  induction es with
  | nil =>
    show (([] : List FileInfo) ++ collectStack a []).Perm (collectEntries a rel [])
    rw [collectEntries_nil]
    simp [collectStack]
  | cons e rest ih =>
    obtain ⟨name, sub⟩ := e
    rw [processEntries_cons, collectEntries_cons]
    by_cases hsp : is_special_file (rel ++ [name])
    · rw [if_pos hsp, if_pos hsp, List.nil_append]
      exact ih
    · rw [if_neg hsp, if_neg hsp]
      cases sub with
      | dir es' =>
        show ((processEntries a rel rest).2 ++
            (collectEntries a (rel ++ [name]) es' ++
              collectStack a (processEntries a rel rest).1)).Perm
          (collectEntries a (rel ++ [name]) es' ++ collectEntries a rel rest)
        refine List.Perm.trans (List.Perm.append_left _ List.perm_append_comm) ?_
        rw [← List.append_assoc]
        exact (ih.append_right _).trans List.perm_append_comm
      | file m =>
        show ((FileInfo.new a (rel ++ [name]) m :: (processEntries a rel rest).2) ++
            collectStack a (processEntries a rel rest).1).Perm
          ([FileInfo.new a (rel ++ [name]) m] ++ collectEntries a rel rest)
        rw [List.cons_append, List.singleton_append]
        exact ih.cons _

theorem walkLoop_perm (a : String) :
    ∀ (st : List (FsPath × List (String × FsTree))) (files : List FileInfo),
      (walkLoop a st files).Perm (files ++ collectStack a st) := by
  intro st files
  induction st, files using walkLoop.induct a with
  | case1 files =>
    rw [walkLoop_nil]
    show files.Perm (files ++ collectStack a [])
    rw [show collectStack a [] = [] from rfl, List.append_nil]
  | case2 rel entries stack files r ih =>
    rw [walkLoop_cons]
    refine List.Perm.trans ih ?_
    rw [List.append_assoc, collectStack_append]
    refine List.Perm.append_left files ?_
    show ((processEntries a rel entries).2 ++
        (collectStack a (processEntries a rel entries).1.reverse ++ collectStack a stack)).Perm
      (collectEntries a rel entries ++ collectStack a stack)
    refine List.Perm.trans (List.Perm.append_left _
      ((collectStack_reverse_perm a _).append_right _)) ?_
    rw [← List.append_assoc]
    exact (processEntries_collect a rel entries).append_right _

theorem take_append_one (rel : FsPath) (name : String) (s : List String) :
    ((rel ++ [name]) ++ s).take (rel.length + 1) = rel ++ [name] := by
  have h : (rel ++ [name]).length = rel.length + 1 := by simp
  rw [List.take_append_of_le_length (le_of_eq h.symm), ← h, List.take_length]

theorem mem_collectEntries_path (a : String) :
    ∀ (rel : FsPath) (es : List (String × FsTree)) (fi : FileInfo),
      fi ∈ collectEntries a rel es → ∃ s, s ≠ [] ∧ fi.path = rel ++ s := by
  intro rel es
  induction rel, es using collectEntries.induct a with
  | case1 rel =>
    intro fi h
    rw [collectEntries_nil] at h
    cases h
  | case2 rel name sub rest ih1 ih2 =>
    intro fi h
    rw [collectEntries_cons] at h
    rcases List.mem_append.mp h with h | h
    · by_cases hsp : is_special_file (rel ++ [name])
      · rw [if_pos hsp] at h
        cases h
      · rw [if_neg hsp] at h
        cases sub with
        | dir es' =>
          obtain ⟨s, hs, hp⟩ := ih1 fi h
          exact ⟨name :: s, by simp, by rw [hp, List.append_assoc]; rfl⟩
        | file m =>
          rw [List.mem_singleton] at h
          subst h
          exact ⟨[name], by simp, rfl⟩
    · exact ih2 fi h

theorem mem_collectEntries_take (a : String) :
    ∀ (rel : FsPath) (es : List (String × FsTree)) (fi : FileInfo),
      fi ∈ collectEntries a rel es →
      ∃ name sub, (name, sub) ∈ es ∧ fi.path.take (rel.length + 1) = rel ++ [name] := by
  intro rel es
  induction rel, es using collectEntries.induct a with
  | case1 rel =>
    intro fi h
    rw [collectEntries_nil] at h
    cases h
  | case2 rel name sub rest ih1 ih2 =>
    intro fi h
    rw [collectEntries_cons] at h
    rcases List.mem_append.mp h with h | h
    · by_cases hsp : is_special_file (rel ++ [name])
      · rw [if_pos hsp] at h
        cases h
      · rw [if_neg hsp] at h
        cases sub with
        | dir es' =>
          obtain ⟨s, hs, hp⟩ := mem_collectEntries_path a (rel ++ [name]) es' fi h
          refine ⟨name, .dir es', List.mem_cons_self _ _, ?_⟩
          rw [hp, take_append_one]
        | file m =>
          rw [List.mem_singleton] at h
          subst h
          refine ⟨name, .file m, List.mem_cons_self _ _, ?_⟩
          have hx := take_append_one rel name []
          rw [List.append_nil] at hx
          exact hx
    · obtain ⟨n', sub', hmem, htake⟩ := ih2 fi h
      exact ⟨n', sub', List.mem_cons_of_mem _ hmem, htake⟩

theorem mem_collectEntries_live (a : String) :
    ∀ (rel : FsPath) (es : List (String × FsTree)) (fi : FileInfo),
      fi ∈ collectEntries a rel es →
      fi.deleted_at = none ∧ is_special_file fi.path = false := by
  intro rel es
  induction rel, es using collectEntries.induct a with
  | case1 rel =>
    intro fi h
    rw [collectEntries_nil] at h
    cases h
  | case2 rel name sub rest ih1 ih2 =>
    intro fi h
    rw [collectEntries_cons] at h
    rcases List.mem_append.mp h with h | h
    · by_cases hsp : is_special_file (rel ++ [name])
      · rw [if_pos hsp] at h
        cases h
      · rw [if_neg hsp] at h
        cases sub with
        | dir es' => exact ih1 fi h
        | file m =>
          rw [List.mem_singleton] at h
          subst h
          exact ⟨rfl, eq_false_of_ne_true hsp⟩
    · exact ih2 fi h

theorem wfEntries_cons (name : String) (sub : FsTree) (rest : List (String × FsTree)) :
    wfEntries ((name, sub) :: rest) =
      (!((rest.map Prod.fst).contains name) && FsTree.wf sub && wfEntries rest) := by
  rw [wfEntries.eq_def]

theorem wf_dir (es : List (String × FsTree)) : FsTree.wf (.dir es) = wfEntries es := by
  rw [FsTree.wf.eq_def]

theorem collectEntries_paths_nodup (a : String) :
    ∀ (rel : FsPath) (es : List (String × FsTree)), wfEntries es = true →
      ((collectEntries a rel es).map FileInfo.path).Nodup := by
  intro rel es
  induction rel, es using collectEntries.induct a with
  | case1 rel =>
    intro _
    rw [collectEntries_nil]
    simp
  | case2 rel name sub rest ih1 ih2 =>
    intro hwf
    rw [wfEntries_cons, Bool.and_eq_true, Bool.and_eq_true] at hwf
    obtain ⟨⟨hname, hsub⟩, hrest⟩ := hwf
    have hnotmem : name ∉ rest.map Prod.fst := by
      simpa using hname
    rw [collectEntries_cons, List.map_append, List.nodup_append]
    refine ⟨?_, ih2 hrest, ?_⟩
    · by_cases hsp : is_special_file (rel ++ [name])
      · rw [if_pos hsp]
        simp
      · rw [if_neg hsp]
        cases sub with
        | dir es' =>
          refine ih1 ?_
          rw [wf_dir] at hsub
          exact hsub
        | file m => simp
    · intro p hp hq
      obtain ⟨fi', hfi', hp'⟩ := List.mem_map.mp hq
      obtain ⟨n', sub', hmem', htake'⟩ := mem_collectEntries_take a rel rest fi' hfi'
      by_cases hsp : is_special_file (rel ++ [name])
      · rw [if_pos hsp] at hp
        simp at hp
      · rw [if_neg hsp] at hp
        have hptake : p.take (rel.length + 1) = rel ++ [name] := by
          cases sub with
          | dir es' =>
            obtain ⟨fi, hfi, hpp⟩ := List.mem_map.mp hp
            obtain ⟨s, hs, hpath⟩ := mem_collectEntries_path a (rel ++ [name]) es' fi hfi
            rw [← hpp, hpath, take_append_one]
          | file m =>
            simp only [List.map_cons, List.map_nil, List.mem_singleton] at hp
            subst hp
            have hx := take_append_one rel name []
            rw [List.append_nil] at hx
            exact hx
        rw [← hp', htake'] at hptake
        have hn : n' = name := by
          have h2 := List.append_cancel_left hptake
          cases h2
          rfl
        subst hn
        exact hnotmem (List.mem_map.mpr ⟨(n', sub'), hmem', rfl⟩)

/-- C4 (confirmed): `is_special_file` holds of every path whose file name
ends with the sentinel suffix `ironcarrier`, and the walked tree never
contributes such a record to the snapshot: every record of a scan whose path
is special can only be a tombstone seeded from the DeletionTracker mapping. -/
theorem C4_scan_skips_special :
    (∀ (p : FsPath) (name : String), p.getLast? = some name →
      strEndsWith name "ironcarrier" = true → is_special_file p = true) ∧
    (∀ (a : String) (tombstones : List (FsPath × Int)) (root : List (String × FsTree))
        (fi : FileInfo), fi ∈ walk_path a tombstones root →
      is_special_file fi.path = true → fi.path ∈ tombstones.map Prod.fst) := by
  constructor
  · intro p name hlast hends
    simp [is_special_file, hlast, hends]
  · intro a tombs root fi hmem hspec
    simp only [walk_path] at hmem
    rw [List.mem_insertionSort] at hmem
    have h2 := (walkLoop_perm a [([], root)]
      (tombs.map fun kv => FileInfo.new_deleted a kv.1 (some kv.2) 0)).mem_iff.mp hmem
    rcases List.mem_append.mp h2 with hf | hc
    · obtain ⟨kv, hkv, hfi⟩ := List.mem_map.mp hf
      subst hfi
      exact List.mem_map.mpr ⟨kv, hkv, rfl⟩
    · have hc2 : fi ∈ collectEntries a [] root ++ [] := hc
      rw [List.append_nil] at hc2
      have hlive := (mem_collectEntries_live a [] root fi hc2).2
      rw [hspec] at hlive
      cases hlive

/-- C4 witness: the theorem applied concretely: a sentinel-suffixed name is
special, and the only special-path record of a concrete scan is the seeded
tombstone. -/
theorem C4_scan_skips_special_witness :
    is_special_file ["d", "x.ironcarrier"] = true ∧
    (["t.ironcarrier"] : FsPath) ∈ ([((["t.ironcarrier"] : FsPath), (3 : Int))].map Prod.fst) :=
  ⟨C4_scan_skips_special.1 ["d", "x.ironcarrier"] "x.ironcarrier" rfl (by decide),
    C4_scan_skips_special.2 "a" [(["t.ironcarrier"], 3)] []
      (FileInfo.new_deleted "a" ["t.ironcarrier"] (some 3) 0)
      (by simp +decide [walk_path, walkLoop, processEntries, collectStack])
      (by decide)⟩

/-- C1 (corrected), counterexample: when the DeletionTracker holds a
tombstone for a path that is also a live file in the tree, the scan returns
two records with that same path, so the result is not strictly ascending by
path. -/
theorem C1_scan_sorted_cex :
    ¬ List.Pairwise (fun x y : FileInfo => pathLt x.path y.path)
      (walk_path "a" [(["f"], 5)] [("f", FsTree.file ⟨some 1, some 2, 3⟩)]) := by
  have hval : walk_path "a" [(["f"], 5)] [("f", FsTree.file ⟨some 1, some 2, 3⟩)] =
      [FileInfo.new_deleted "a" ["f"] (some 5) 0,
        FileInfo.new "a" ["f"] ⟨some 1, some 2, 3⟩] := by
    simp +decide [walk_path, walkLoop, processEntries]
  rw [hval]
  intro hpw
  have h1 := (List.pairwise_cons.mp hpw).1 _ (List.mem_cons_self _ _)
  exact absurd h1 (by decide)

/-- C1 (amended): every successful scan is sorted ascending (non-strictly)
by path; when moreover the tombstone paths are pairwise distinct, the tree
has no duplicate sibling names, and no tombstone path is also a live file
path of the tree, the result is sorted strictly ascending with no two
records sharing a path.  (The claim as stated fails exactly when a tombstone
path coincides with a live path: both records are kept.) -/
theorem C1_scan_sorted :
    ∀ (a : String) (tombstones : List (FsPath × Int)) (root : List (String × FsTree)),
      List.Sorted fileLe (walk_path a tombstones root) ∧
      ((tombstones.map Prod.fst).Nodup → wfEntries root = true →
        (∀ p ∈ tombstones.map Prod.fst, p ∉ (collectEntries a [] root).map FileInfo.path) →
        List.Pairwise (fun x y : FileInfo => pathLt x.path y.path)
          (walk_path a tombstones root)) := by
  intro a tombs root
  have hsorted : List.Sorted fileLe (walk_path a tombs root) := by
    simp only [walk_path]
    exact List.sorted_insertionSort fileLe _
  refine ⟨hsorted, ?_⟩
  intro hnd hwf hdisj
  have htpaths : ((tombs.map fun kv => FileInfo.new_deleted a kv.1 (some kv.2) 0).map
      FileInfo.path) = tombs.map Prod.fst := by
    rw [List.map_map]
    rfl
  have hperm : (walk_path a tombs root).Perm
      ((tombs.map fun kv => FileInfo.new_deleted a kv.1 (some kv.2) 0) ++
        collectEntries a [] root) := by
    simp only [walk_path]
    refine (List.perm_insertionSort fileLe _).trans ?_
    refine (walkLoop_perm a _ _).trans ?_
    rw [show collectStack a [([], root)] = collectEntries a [] root ++ [] from rfl,
      List.append_nil]
  have hpaths : ((walk_path a tombs root).map FileInfo.path).Nodup := by
    rw [(hperm.map FileInfo.path).nodup_iff]
    rw [List.map_append, List.nodup_append]
    refine ⟨?_, collectEntries_paths_nodup a [] root hwf, ?_⟩
    · rw [htpaths]
      exact hnd
    · intro p hp hq
      rw [htpaths] at hp
      exact hdisj p hp hq
  have hne : List.Pairwise (fun x y : FileInfo => x.path ≠ y.path)
      (walk_path a tombs root) := by
    rw [List.Nodup, List.pairwise_map] at hpaths
    exact hpaths
  exact (hsorted.and hne).imp (fun h => pathLt_of_pathLe_of_ne h.1 h.2)

/-- C1 witness: the amended theorem applied to a concrete scan of one live
file `f` with one tombstone `t`, all side conditions discharged concretely. -/
theorem C1_scan_sorted_witness :
    List.Pairwise (fun x y : FileInfo => pathLt x.path y.path)
      (walk_path "a" [(["t"], 5)] [("f", FsTree.file ⟨some 1, some 2, 3⟩)]) :=
  (C1_scan_sorted "a" [(["t"], 5)] [("f", FsTree.file ⟨some 1, some 2, 3⟩)]).2
    (by decide)
    (by simp +decide [wfEntries, FsTree.wf])
    (by simp +decide [collectEntries])


end IronCarrier
